import Mathlib

/-!
Verification of the retirement-plan Monte Carlo simulation.

The engine (`monte_carlo_simulation` in `monte-carlo-simulation.py`, duplicated
verbatim in `main.py`) advances a year × path matrix of portfolio values under
random annual returns and random withdrawal growth, and the reporting layer in
`main.py` derives terminal values, real (inflation-deflated) values, a success
rate and linear-interpolation percentiles.

Embedding conventions:
* numpy float arrays become `List ℚ` (exact arithmetic stands in for IEEE
  floats; the properties checked are exact arithmetic identities).
* `np.random.normal(mean, std, n)` is modelled by an external source of
  standard draws `z : ℕ → ℕ → ℚ` (year index, path index), the sample at
  path `p` of year `i` being `mean + std * z i p`.  With `std = 0` the sample
  is exactly `mean`, as in numpy.  This abstraction does not model numpy's
  rejection of a negative scale, so theorems about error-freedom carry
  non-negative-volatility hypotheses.
* Python-level numpy failures are modelled with `Except`: `np.zeros` with a
  negative dimension raises `ValueError`, and the row-0 assignment
  `portfolio_values[0, :] = initial_investment` raises `IndexError` when the
  matrix has zero rows (`num_years = 0`).
-/

namespace RetirementPlan

/-- A numpy 1-d float array (one entry per simulated path). -/
abbrev Vec := List ℚ

/-- A numpy 2-d float array: year × path matrix, stored as a list of rows. -/
abbrev Mat := List Vec

/-- The mutable state of the simulation loop: the value matrix, the per-path
withdrawal vector and the per-path cumulative inflation factors. -/
structure MCState where
  portfolio_values : Mat
  withdrawals : Vec
  cumulative_inflation_factors : Vec
deriving DecidableEq

/-- What `monte_carlo_simulation` returns: the value matrix and the per-path
cumulative inflation factors (the withdrawal vector stays internal). -/
structure MCResult where
  portfolio_values : Mat
  cumulative_inflation_factors : Vec
deriving DecidableEq

/-- Runtime errors numpy can raise in this code path. -/
inductive NumpyError where
  | valueError : NumpyError
  | indexError : NumpyError
deriving DecidableEq

/-- One sample of `np.random.normal(mean, std, size)`: numpy produces
`loc + scale * z` with `z` a standard-normal draw; the abstract standard
draw `z` is supplied externally. -/
def normalDraw (mean std z : ℚ) : ℚ := mean + std * z

/-- Lines 17-24 of `monte-carlo-simulation.py`: allocate the zero matrix, set
row 0 to the initial investment, and build the withdrawal and
cumulative-inflation vectors. -/
def simInit (initial_investment : ℚ) (num_years num_simulations : ℕ)
    (withdrawal_value : ℚ) : MCState :=
  let portfolio_values := List.replicate num_years (List.replicate num_simulations (0 : ℚ))
  let portfolio_values := portfolio_values.set 0 (List.replicate num_simulations initial_investment)
  let withdrawals := List.replicate num_simulations withdrawal_value
  let cumulative_inflation_factors := List.replicate num_simulations (1 : ℚ)
  { portfolio_values := portfolio_values
    withdrawals := withdrawals
    cumulative_inflation_factors := cumulative_inflation_factors }

/-- Lines 27-40 of `monte-carlo-simulation.py`: the body of the year loop at
index `i`.  Draw the annual returns, write row `i` from row `i-1` and the
current withdrawals, clamp row `i` at zero, draw the withdrawal growth rates,
and scale both the withdrawals and the cumulative inflation factors by the
same drawn growth rates. -/
def simYearStep (returns_mean returns_std inflation_mean inflation_std : ℚ)
    (num_simulations : ℕ) (zRet zInf : ℕ → ℕ → ℚ) (st : MCState) (i : ℕ) : MCState :=
  let annual_returns : Vec :=
    List.ofFn fun p : Fin num_simulations => normalDraw returns_mean returns_std (zRet i p.val)
  let row_raw : Vec :=
    List.zipWith (fun v w => v - w)
      (List.zipWith (fun v r => v * (1 + r)) (st.portfolio_values.getD (i - 1) []) annual_returns)
      st.withdrawals
  let pv1 := st.portfolio_values.set i row_raw
  let pv2 := pv1.set i ((pv1.getD i []).map fun v => max v 0)
  let withdrawal_growth_rates : Vec :=
    List.ofFn fun p : Fin num_simulations => normalDraw inflation_mean inflation_std (zInf i p.val)
  { portfolio_values := pv2
    withdrawals := List.zipWith (fun w g => w * (1 + g)) st.withdrawals withdrawal_growth_rates
    cumulative_inflation_factors :=
      List.zipWith (fun c g => c * (1 + g)) st.cumulative_inflation_factors withdrawal_growth_rates }

/-- The first `k` iterations of the loop `for i in range(1, num_years)` (the
full loop has `k = num_years - 1`), starting from the initial state. -/
def simSteps (initial_investment returns_mean returns_std : ℚ)
    (num_simulations : ℕ) (withdrawal_value inflation_mean inflation_std : ℚ)
    (zRet zInf : ℕ → ℕ → ℚ) (num_years k : ℕ) : MCState :=
  (List.range' 1 k).foldl
    (simYearStep returns_mean returns_std inflation_mean inflation_std num_simulations zRet zInf)
    (simInit initial_investment num_years num_simulations withdrawal_value)

/-- Lines 7-42 of `monte-carlo-simulation.py`.  The horizon and path count are
Python ints (`ℤ`).  A negative dimension makes `np.zeros` raise `ValueError`;
with zero rows the assignment `portfolio_values[0, :] = initial_investment`
raises `IndexError`; otherwise the loop runs `num_years - 1` steps and the
matrix and the cumulative inflation factors are returned. -/
def monte_carlo_simulation (initial_investment returns_mean returns_std : ℚ)
    (num_years num_simulations : ℤ) (withdrawal_value inflation_mean inflation_std : ℚ)
    (zRet zInf : ℕ → ℕ → ℚ) : Except NumpyError MCResult :=
  if num_years < 0 ∨ num_simulations < 0 then .error .valueError
  else if num_years = 0 then .error .indexError
  else
    let st := simSteps initial_investment returns_mean returns_std num_simulations.toNat
      withdrawal_value inflation_mean inflation_std zRet zInf num_years.toNat
      (num_years.toNat - 1)
    .ok { portfolio_values := st.portfolio_values
          cumulative_inflation_factors := st.cumulative_inflation_factors }

/-- Line 175 of `main.py` (and line 68 of `monte-carlo-simulation.py`):
`final_portfolio_values = simulated_portfolios[-1, :]`, the last row of the
value matrix. -/
def final_portfolio_values (r : MCResult) : Vec :=
  r.portfolio_values.getLastD []

/-- Line 176 of `main.py` (and line 87 of `monte-carlo-simulation.py`):
`final_portfolio_values / cumulative_inflation_factors`, elementwise. -/
def final_portfolio_values_real (r : MCResult) : Vec :=
  List.zipWith (fun v c => v / c) (final_portfolio_values r) r.cumulative_inflation_factors

/-- Line 200 of `main.py`: `np.mean(final_portfolio_values > 0) * 100`; the
mean of a boolean array is the count of `True` entries over the length. -/
def success_rate (r : MCResult) : ℚ :=
  (((final_portfolio_values r).countP fun v => decide (0 < v)) : ℚ)
    / ((final_portfolio_values r).length : ℚ) * 100

/-- Line 276 of `main.py`: `percentiles = list(range(5, 100, 5))`. -/
def percentile_ranks : List ℕ := List.range' 5 19 5

/-- The linear-interpolation step of `np.percentile` (numpy's default
method) at fractional position `pos`: with `i = ⌊pos⌋` and `frac = pos - i`,
return `s[i] + frac * (s[i+1] - s[i])`, the upper index clipped to the last
element (numpy clips as well; here the out-of-range `getD` falls back to
`s[i]`). -/
def percInterp (s : List ℚ) (pos : ℚ) : ℚ :=
  let i : ℕ := (Int.floor pos).toNat
  let frac : ℚ := pos - (i : ℚ)
  s.getD i 0 + frac * (s.getD (i + 1) (s.getD i 0) - s.getD i 0)

/-- Full `np.percentile(values, q)`: sort ascending, then interpolate at the
fractional position `q/100 * (n-1)`. -/
def np_percentile (xs : List ℚ) (q : ℚ) : ℚ :=
  let s := xs.insertionSort (· ≤ ·)
  percInterp s (q / 100 * ((s.length : ℚ) - 1))

end RetirementPlan

namespace MainPy

/-- Lines 25-32 of `main.py`: identical to `simInit` of
`monte-carlo-simulation.py`. -/
def simInit (initial_investment : ℚ) (num_years num_simulations : ℕ)
    (withdrawal_value : ℚ) : RetirementPlan.MCState :=
  let portfolio_values := List.replicate num_years (List.replicate num_simulations (0 : ℚ))
  let portfolio_values := portfolio_values.set 0 (List.replicate num_simulations initial_investment)
  let withdrawals := List.replicate num_simulations withdrawal_value
  let cumulative_inflation_factors := List.replicate num_simulations (1 : ℚ)
  { portfolio_values := portfolio_values
    withdrawals := withdrawals
    cumulative_inflation_factors := cumulative_inflation_factors }

/-- Lines 34-48 of `main.py`: identical to `simYearStep` of
`monte-carlo-simulation.py`. -/
def simYearStep (returns_mean returns_std inflation_mean inflation_std : ℚ)
    (num_simulations : ℕ) (zRet zInf : ℕ → ℕ → ℚ) (st : RetirementPlan.MCState) (i : ℕ) :
    RetirementPlan.MCState :=
  let annual_returns : RetirementPlan.Vec :=
    List.ofFn fun p : Fin num_simulations =>
      RetirementPlan.normalDraw returns_mean returns_std (zRet i p.val)
  let row_raw : RetirementPlan.Vec :=
    List.zipWith (fun v w => v - w)
      (List.zipWith (fun v r => v * (1 + r)) (st.portfolio_values.getD (i - 1) []) annual_returns)
      st.withdrawals
  let pv1 := st.portfolio_values.set i row_raw
  let pv2 := pv1.set i ((pv1.getD i []).map fun v => max v 0)
  let withdrawal_growth_rates : RetirementPlan.Vec :=
    List.ofFn fun p : Fin num_simulations =>
      RetirementPlan.normalDraw inflation_mean inflation_std (zInf i p.val)
  { portfolio_values := pv2
    withdrawals := List.zipWith (fun w g => w * (1 + g)) st.withdrawals withdrawal_growth_rates
    cumulative_inflation_factors :=
      List.zipWith (fun c g => c * (1 + g)) st.cumulative_inflation_factors withdrawal_growth_rates }

/-- The loop `for i in range(1, num_years)` of `main.py`, first `k`
iterations. -/
def simSteps (initial_investment returns_mean returns_std : ℚ)
    (num_simulations : ℕ) (withdrawal_value inflation_mean inflation_std : ℚ)
    (zRet zInf : ℕ → ℕ → ℚ) (num_years k : ℕ) : RetirementPlan.MCState :=
  (List.range' 1 k).foldl
    (simYearStep returns_mean returns_std inflation_mean inflation_std num_simulations zRet zInf)
    (simInit initial_investment num_years num_simulations withdrawal_value)

/-- Lines 15-50 of `main.py`: the copy of `monte_carlo_simulation` pasted into
`main.py`, embedded with the same conventions as the original. -/
def monte_carlo_simulation (initial_investment returns_mean returns_std : ℚ)
    (num_years num_simulations : ℤ) (withdrawal_value inflation_mean inflation_std : ℚ)
    (zRet zInf : ℕ → ℕ → ℚ) : Except RetirementPlan.NumpyError RetirementPlan.MCResult :=
  if num_years < 0 ∨ num_simulations < 0 then .error .valueError
  else if num_years = 0 then .error .indexError
  else
    let st := simSteps initial_investment returns_mean returns_std num_simulations.toNat
      withdrawal_value inflation_mean inflation_std zRet zInf num_years.toNat
      (num_years.toNat - 1)
    .ok { portfolio_values := st.portfolio_values
          cumulative_inflation_factors := st.cumulative_inflation_factors }

end MainPy

open RetirementPlan

/-! ### Generic list access lemmas -/

/-- `getD` of a `zipWith` at an in-bounds index, with arbitrary defaults. -/
theorem zipWith_getD {α β γ : Type _} (f : α → β → γ) (l₁ : List α) (l₂ : List β)
    (p : ℕ) (h₁ : p < l₁.length) (h₂ : p < l₂.length) (d₁ : α) (d₂ : β) (d : γ) :
    (List.zipWith f l₁ l₂).getD p d = f (l₁.getD p d₁) (l₂.getD p d₂) := by
  rw [List.getD_eq_getElem _ _ (by rw [List.length_zipWith]; exact lt_min h₁ h₂),
    List.getD_eq_getElem _ _ h₁, List.getD_eq_getElem _ _ h₂, List.getElem_zipWith]

/-- `getD` of `List.ofFn` at an in-bounds index. -/
theorem ofFn_getD {α : Type _} {n : ℕ} (f : Fin n → α) (p : ℕ) (h : p < n) (d : α) :
    (List.ofFn f).getD p d = f ⟨p, h⟩ := by
  rw [List.getD_eq_getElem _ _ (by simpa using h), List.getElem_ofFn]

/-- `getD` of a `map` at an in-bounds index. -/
theorem map_getD {α β : Type _} (f : α → β) (l : List α) (p : ℕ) (h : p < l.length)
    (d : β) (d' : α) : (l.map f).getD p d = f (l.getD p d') := by
  rw [List.getD_eq_getElem _ _ (by simpa using h), List.getD_eq_getElem _ _ h,
    List.getElem_map]

/-- `getD` of a `set` at the written index. -/
theorem set_getD_self {α : Type _} (l : List α) (i : ℕ) (a : α) (d : α)
    (h : i < l.length) : (l.set i a).getD i d = a := by
  rw [List.getD_eq_getElem _ _ (by simpa using h), List.getElem_set, if_pos rfl]

/-- `getD` of a `set` at an index other than the written one. -/
theorem set_getD_ne {α : Type _} (l : List α) (i t : ℕ) (a : α) (d : α)
    (h : i ≠ t) : (l.set i a).getD t d = l.getD t d := by
  by_cases ht : t < l.length
  · rw [List.getD_eq_getElem _ _ (by simpa using ht), List.getD_eq_getElem _ _ ht,
      List.getElem_set, if_neg h]
  · rw [List.getD_eq_default _ _ (by simpa using Nat.le_of_not_lt ht),
      List.getD_eq_default _ _ (Nat.le_of_not_lt ht)]

/-- `getD` of `replicate` at an in-bounds index. -/
theorem replicate_getD {α : Type _} (n : ℕ) (a : α) (p : ℕ) (h : p < n) (d : α) :
    (List.replicate n a).getD p d = a := by
  rw [List.getD_eq_getElem _ _ (by simpa using h), List.getElem_replicate]

/-- In a `≤`-sorted list, `getD` is monotone over in-bounds indices, whatever
the defaults. -/
theorem sorted_getD_le (s : List ℚ) (hs : List.Sorted (· ≤ ·) s) (a b : ℕ)
    (da db : ℚ) (hab : a ≤ b) (hb : b < s.length) : s.getD a da ≤ s.getD b db := by
  have ha : a < s.length := lt_of_le_of_lt hab hb
  rw [List.getD_eq_getElem _ _ ha, List.getD_eq_getElem _ _ hb]
  have := hs.rel_get_of_le (a := ⟨a, ha⟩) (b := ⟨b, hb⟩) (Fin.mk_le_mk.mpr hab)
  simpa [List.get_eq_getElem] using this

/-- Invariant preservation along a left fold. -/
theorem foldl_induction {α β : Type _} (f : α → β → α) (l : List β) (init : α)
    (P : α → Prop) (h0 : P init) (hstep : ∀ a b, b ∈ l → P a → P (f a b)) :
    P (l.foldl f init) := by
  induction l generalizing init with
  | nil => exact h0
  | cons b t ih =>
    exact ih (f init b) (hstep init b (.head t) h0)
      fun a c hc ha => hstep a c (.tail b hc) ha

/-- `range(1, k+2)` is `range(1, k+1)` followed by the extra index `k + 1`. -/
theorem range'_one_concat (k : ℕ) :
    List.range' 1 (k + 1) = List.range' 1 k ++ [k + 1] := by
  have h := List.range'_append 1 k 1 1
  rw [List.range'_one] at h
  rw [Nat.add_comm 1 k] at h
  simpa [Nat.add_comm 1 k] using h.symm

/-- Unrolling the last iteration of the simulation loop. -/
theorem simSteps_succ (ii rm rs : ℚ) (ns : ℕ) (wv im is : ℚ)
    (zR zI : ℕ → ℕ → ℚ) (ny k : ℕ) :
    simSteps ii rm rs ns wv im is zR zI ny (k + 1)
      = simYearStep rm rs im is ns zR zI (simSteps ii rm rs ns wv im is zR zI ny k)
          (k + 1) := by
  unfold simSteps
  rw [range'_one_concat, List.foldl_append, List.foldl_cons, List.foldl_nil]

/-! ### Shape invariants of the simulation loop -/

/-- Well-formed loop state: `num_years` rows, every row of length
`num_simulations`, and both auxiliary vectors of length `num_simulations`. -/
def GoodShape (ny ns : ℕ) (st : MCState) : Prop :=
  st.portfolio_values.length = ny ∧
  (∀ row ∈ st.portfolio_values, row.length = ns) ∧
  st.withdrawals.length = ns ∧
  st.cumulative_inflation_factors.length = ns

/-- The initial state is well formed. -/
theorem simInit_goodShape (ii : ℚ) (ny ns : ℕ) (wv : ℚ) :
    GoodShape ny ns (simInit ii ny ns wv) := by
  refine ⟨by simp [simInit], ?_, by simp [simInit], by simp [simInit]⟩
  intro row hrow
  rcases List.mem_or_eq_of_mem_set hrow with h | h
  · rw [List.eq_of_mem_replicate h]; simp
  · rw [h]; simp

/-- The length of a row of a well-formed state fetched with `getD`. -/
theorem GoodShape.row_length {ny ns : ℕ} {st : MCState} (h : GoodShape ny ns st)
    {t : ℕ} (ht : t < ny) : (st.portfolio_values.getD t []).length = ns := by
  rw [List.getD_eq_getElem _ _ (h.1 ▸ ht)]
  exact h.2.1 _ (List.getElem_mem _)

/-- The unclamped row the loop writes at index `i`:
`portfolio_values[i-1, :] * (1 + annual_returns) - withdrawals`. -/
def rawRow (rm rs : ℚ) (ns : ℕ) (zR : ℕ → ℕ → ℚ) (st : MCState) (i : ℕ) : Vec :=
  List.zipWith (fun v w => v - w)
    (List.zipWith (fun v r => v * (1 + r)) (st.portfolio_values.getD (i - 1) [])
      (List.ofFn fun p : Fin ns => normalDraw rm rs (zR i p.val)))
    st.withdrawals

/-- For an in-range row index, the year step writes the clamped raw row. -/
theorem simYearStep_pv (rm rs im ifs : ℚ) (ns : ℕ) (zR zI : ℕ → ℕ → ℚ)
    (st : MCState) (i : ℕ) (hi : i < st.portfolio_values.length) :
    (simYearStep rm rs im ifs ns zR zI st i).portfolio_values
      = st.portfolio_values.set i ((rawRow rm rs ns zR st i).map fun v => max v 0) := by
  show (st.portfolio_values.set i (rawRow rm rs ns zR st i)).set i
      (((st.portfolio_values.set i (rawRow rm rs ns zR st i)).getD i []).map fun v => max v 0)
    = _
  rw [List.set_set]
  exact congrArg _ (congrArg _ (set_getD_self _ _ _ _ hi))

/-- The year step scales the withdrawal vector by the drawn growth factors. -/
theorem simYearStep_withdrawals (rm rs im ifs : ℚ) (ns : ℕ) (zR zI : ℕ → ℕ → ℚ)
    (st : MCState) (i : ℕ) :
    (simYearStep rm rs im ifs ns zR zI st i).withdrawals
      = List.zipWith (fun w g => w * (1 + g)) st.withdrawals
          (List.ofFn fun p : Fin ns => normalDraw im ifs (zI i p.val)) := rfl

/-- The year step scales the cumulative inflation factors by the same drawn
growth factors that scale the withdrawals. -/
theorem simYearStep_cumInfl (rm rs im ifs : ℚ) (ns : ℕ) (zR zI : ℕ → ℕ → ℚ)
    (st : MCState) (i : ℕ) :
    (simYearStep rm rs im ifs ns zR zI st i).cumulative_inflation_factors
      = List.zipWith (fun c g => c * (1 + g)) st.cumulative_inflation_factors
          (List.ofFn fun p : Fin ns => normalDraw im ifs (zI i p.val)) := rfl

/-- The raw row has one entry per path when the state is well formed. -/
theorem rawRow_length (rm rs : ℚ) (ns : ℕ) (zR : ℕ → ℕ → ℚ) {ny : ℕ}
    {st : MCState} (h : GoodShape ny ns st) {i : ℕ} (hi : i < ny) :
    (rawRow rm rs ns zR st i).length = ns := by
  have hprev : (st.portfolio_values.getD (i - 1) []).length = ns :=
    h.row_length (lt_of_le_of_lt (Nat.sub_le i 1) hi)
  rw [rawRow, List.length_zipWith, List.length_zipWith, List.length_ofFn, hprev,
    h.2.2.1]
  simp

/-- One year step of the loop preserves well-formedness when the written row
index is in range. -/
theorem simYearStep_goodShape (rm rs im ifs : ℚ) (ns : ℕ) (zR zI : ℕ → ℕ → ℚ)
    {ny : ℕ} {st : MCState} (h : GoodShape ny ns st) {i : ℕ} (hi : i < ny) :
    GoodShape ny ns (simYearStep rm rs im ifs ns zR zI st i) := by
  have hpv := simYearStep_pv rm rs im ifs ns zR zI st i (h.1 ▸ hi)
  refine ⟨by rw [hpv, List.length_set, h.1], ?_, ?_, ?_⟩
  · intro row hrow
    rw [hpv] at hrow
    rcases List.mem_or_eq_of_mem_set hrow with h1 | h1
    · exact h.2.1 _ h1
    · rw [h1, List.length_map]
      exact rawRow_length rm rs ns zR h hi
  · rw [simYearStep_withdrawals, List.length_zipWith, h.2.2.1, List.length_ofFn]
    simp
  · rw [simYearStep_cumInfl, List.length_zipWith, h.2.2.2, List.length_ofFn]
    simp

/-- After any prefix of the loop the state is well formed. -/
theorem simSteps_goodShape (ii rm rs : ℚ) (ns : ℕ) (wv im ifs : ℚ)
    (zR zI : ℕ → ℕ → ℚ) (ny k : ℕ) (hk : k < ny) :
    GoodShape ny ns (simSteps ii rm rs ns wv im ifs zR zI ny k) := by
  refine foldl_induction _ _ _ _ (simInit_goodShape ii ny ns wv) ?_
  intro st i hi hst
  have hmem := List.mem_range'_1.mp hi
  exact simYearStep_goodShape rm rs im ifs ns zR zI hst (by omega)

/-! ### Row 0, nonnegativity, and per-path closed forms -/

/-- Row 0, set before the loop, is never overwritten: it stays the constant
initial-investment row. -/
theorem simSteps_row0 (ii rm rs : ℚ) (ns : ℕ) (wv im ifs : ℚ)
    (zR zI : ℕ → ℕ → ℚ) (ny k : ℕ) (hny : 1 ≤ ny) (hk : k < ny) :
    (simSteps ii rm rs ns wv im ifs zR zI ny k).portfolio_values.getD 0 []
      = List.replicate ns ii := by
  induction k with
  | zero =>
    show (simInit ii ny ns wv).portfolio_values.getD 0 [] = _
    exact set_getD_self _ _ _ _ (by simpa using hny)
  | succ k ih =>
    have hk' : k < ny := by omega
    have hgs := simSteps_goodShape ii rm rs ns wv im ifs zR zI ny k hk'
    rw [simSteps_succ,
      simYearStep_pv rm rs im ifs ns zR zI _ (k + 1) (by rw [hgs.1]; omega),
      set_getD_ne _ _ _ _ _ (by omega)]
    exact ih hk'

/-- Every entry of every row of the matrix stays nonnegative: rows are either
the untouched zero rows, the initial-investment row, or a clamped written
row. -/
theorem simSteps_nonneg (ii rm rs : ℚ) (ns : ℕ) (wv im ifs : ℚ)
    (zR zI : ℕ → ℕ → ℚ) (ny k : ℕ) (hii : 0 ≤ ii) (hk : k < ny) :
    ∀ row ∈ (simSteps ii rm rs ns wv im ifs zR zI ny k).portfolio_values,
      ∀ x ∈ row, 0 ≤ x := by
  have h2 : ∀ st : MCState,
      GoodShape ny ns st → (∀ row ∈ st.portfolio_values, ∀ x ∈ row, 0 ≤ x) →
      ∀ i, i < ny → ∀ row ∈ (simYearStep rm rs im ifs ns zR zI st i).portfolio_values,
        ∀ x ∈ row, 0 ≤ x := by
    intro st hgs hst i hi row hrow x hx
    rw [simYearStep_pv rm rs im ifs ns zR zI st i (hgs.1 ▸ hi)] at hrow
    rcases List.mem_or_eq_of_mem_set hrow with h1 | h1
    · exact hst row h1 x hx
    · rw [h1] at hx
      obtain ⟨v, _, rfl⟩ := List.mem_map.mp hx
      exact le_max_right v 0
  have := foldl_induction
    (simYearStep rm rs im ifs ns zR zI)
    (List.range' 1 k)
    (simInit ii ny ns wv)
    (fun st => GoodShape ny ns st ∧ ∀ row ∈ st.portfolio_values, ∀ x ∈ row, 0 ≤ x)
    ⟨simInit_goodShape ii ny ns wv, ?_⟩ ?_
  · exact this.2
  · intro row hrow x hx
    rcases List.mem_or_eq_of_mem_set hrow with h1 | h1
    · rw [List.eq_of_mem_replicate h1] at hx
      rw [List.eq_of_mem_replicate hx]
    · rw [h1] at hx
      rw [List.eq_of_mem_replicate hx]
      exact hii
  · intro st i hi hst
    have hmem := List.mem_range'_1.mp hi
    exact ⟨simYearStep_goodShape rm rs im ifs ns zR zI hst.1 (by omega),
      h2 st hst.1 hst.2 i (by omega)⟩

/-- Entry `p` of the withdrawal vector after a year step. -/
theorem simYearStep_withdrawals_getD (rm rs im ifs : ℚ) (ns : ℕ)
    (zR zI : ℕ → ℕ → ℚ) (st : MCState) (i : ℕ)
    (hw : st.withdrawals.length = ns) (p : ℕ) (hp : p < ns) :
    (simYearStep rm rs im ifs ns zR zI st i).withdrawals.getD p 0
      = st.withdrawals.getD p 0 * (1 + normalDraw im ifs (zI i p)) := by
  rw [simYearStep_withdrawals,
    zipWith_getD _ _ _ p (hw ▸ hp) (by simpa using hp) 0 0 0,
    ofFn_getD _ p hp]

/-- Entry `p` of the cumulative-inflation vector after a year step: it is
scaled by exactly the same drawn factor as the withdrawal entry. -/
theorem simYearStep_cumInfl_getD (rm rs im ifs : ℚ) (ns : ℕ)
    (zR zI : ℕ → ℕ → ℚ) (st : MCState) (i : ℕ)
    (hc : st.cumulative_inflation_factors.length = ns) (p : ℕ) (hp : p < ns) :
    (simYearStep rm rs im ifs ns zR zI st i).cumulative_inflation_factors.getD p 0
      = st.cumulative_inflation_factors.getD p 0 * (1 + normalDraw im ifs (zI i p)) := by
  rw [simYearStep_cumInfl,
    zipWith_getD _ _ _ p (hc ▸ hp) (by simpa using hp) 0 0 0,
    ofFn_getD _ p hp]

/-- Closed form after `k` loop iterations: the cumulative-inflation entry of
path `p` is the product of the `(1 + growth)` factors of years `1..k`, and the
withdrawal entry is the initial withdrawal times the same product. -/
theorem simSteps_cumInfl_withdrawals (ii rm rs : ℚ) (ns : ℕ) (wv im ifs : ℚ)
    (zR zI : ℕ → ℕ → ℚ) (ny k : ℕ) (hk : k < ny) (p : ℕ) (hp : p < ns) :
    (simSteps ii rm rs ns wv im ifs zR zI ny k).cumulative_inflation_factors.getD p 0
      = (∏ t ∈ Finset.Ico 1 (k + 1), (1 + normalDraw im ifs (zI t p))) ∧
    (simSteps ii rm rs ns wv im ifs zR zI ny k).withdrawals.getD p 0
      = wv * ∏ t ∈ Finset.Ico 1 (k + 1), (1 + normalDraw im ifs (zI t p)) := by
  induction k with
  | zero =>
    constructor
    · show (List.replicate ns (1 : ℚ)).getD p 0 = _
      rw [replicate_getD ns 1 p hp]
      simp
    · show (List.replicate ns wv).getD p 0 = _
      rw [replicate_getD ns wv p hp]
      simp
  | succ k ih =>
    have hk' : k < ny := by omega
    obtain ⟨ihc, ihw⟩ := ih hk'
    have hgs := simSteps_goodShape ii rm rs ns wv im ifs zR zI ny k hk'
    have hprod : (∏ t ∈ Finset.Ico 1 (k + 1 + 1), (1 + normalDraw im ifs (zI t p)))
        = (∏ t ∈ Finset.Ico 1 (k + 1), (1 + normalDraw im ifs (zI t p)))
          * (1 + normalDraw im ifs (zI (k + 1) p)) :=
      Finset.prod_Ico_succ_top (by omega) _
    constructor
    · rw [simSteps_succ,
        simYearStep_cumInfl_getD rm rs im ifs ns zR zI _ (k + 1) hgs.2.2.2 p hp,
        ihc, hprod]
    · rw [simSteps_succ,
        simYearStep_withdrawals_getD rm rs im ifs ns zR zI _ (k + 1) hgs.2.2.1 p hp,
        ihw, hprod]
      ring

/-- Entry `p` of the row written at index `i` by a year step: the clamped
recurrence `max(prev * (1 + return) - withdrawal, 0)`. -/
theorem simYearStep_pv_getD_self (rm rs im ifs : ℚ) (ns : ℕ) (zR zI : ℕ → ℕ → ℚ)
    {ny : ℕ} {st : MCState} (hgs : GoodShape ny ns st) {i : ℕ} (hi : i < ny)
    (p : ℕ) (hp : p < ns) :
    ((simYearStep rm rs im ifs ns zR zI st i).portfolio_values.getD i []).getD p 0
      = max ((st.portfolio_values.getD (i - 1) []).getD p 0
          * (1 + normalDraw rm rs (zR i p)) - st.withdrawals.getD p 0) 0 := by
  have hprev := hgs.row_length (lt_of_le_of_lt (Nat.sub_le i 1) hi)
  have hinner : p < (List.zipWith (fun v r => v * (1 + r))
      (st.portfolio_values.getD (i - 1) [])
      (List.ofFn fun q : Fin ns => normalDraw rm rs (zR i q.val))).length := by
    rw [List.length_zipWith, hprev, List.length_ofFn]
    simpa using hp
  rw [simYearStep_pv rm rs im ifs ns zR zI st i (hgs.1 ▸ hi),
    set_getD_self _ _ _ _ (hgs.1 ▸ hi),
    map_getD _ _ p (by rw [rawRow_length rm rs ns zR hgs hi]; exact hp) 0 0]
  congr 1
  rw [rawRow, zipWith_getD _ _ _ p hinner (hgs.2.2.1 ▸ hp) 0 0 0,
    zipWith_getD _ _ _ p (hprev ▸ hp) (by simpa using hp) 0 0 0,
    ofFn_getD _ p hp]

/-- Modelled from the spec (zero-volatility sanity check): the deterministic
withdrawal in year `t`, compounding at exactly `(1 + inflation_mean)` per
year. -/
def specWithdrawal (wv im : ℚ) (t : ℕ) : ℚ := wv * (1 + im) ^ t

/-- Modelled from the spec (zero-volatility sanity check): the deterministic
recurrence `v[t] = max(v[t-1] * (1 + returns_mean) - withdrawal[t-1], 0)`,
`v[0]` the initial investment. -/
def specDetValue (ii rm wv im : ℚ) : ℕ → ℚ
  | 0 => ii
  | t + 1 => max (specDetValue ii rm wv im t * (1 + rm) - specWithdrawal wv im t) 0

/-- With both volatilities zero, every written row follows the deterministic
recurrence and the withdrawal vector compounds at exactly `1 + im`. -/
theorem simSteps_zero_vol (ii rm : ℚ) (ns : ℕ) (wv im : ℚ) (zR zI : ℕ → ℕ → ℚ)
    (ny k : ℕ) (hny : 1 ≤ ny) (hk : k < ny) :
    (∀ t, t ≤ k → ∀ p, p < ns →
      ((simSteps ii rm 0 ns wv im 0 zR zI ny k).portfolio_values.getD t []).getD p 0
        = specDetValue ii rm wv im t) ∧
    (∀ p, p < ns →
      (simSteps ii rm 0 ns wv im 0 zR zI ny k).withdrawals.getD p 0
        = specWithdrawal wv im k) := by
  induction k with
  | zero =>
    constructor
    · intro t ht p hp
      have ht0 : t = 0 := Nat.le_zero.mp ht
      subst ht0
      show ((simInit ii ny ns wv).portfolio_values.getD 0 []).getD p 0 = _
      rw [show (simInit ii ny ns wv).portfolio_values.getD 0 []
            = List.replicate ns ii from set_getD_self _ _ _ _ (by simpa using hny),
        replicate_getD ns ii p hp]
      rfl
    · intro p hp
      show (List.replicate ns wv).getD p 0 = _
      rw [replicate_getD ns wv p hp, specWithdrawal]
      ring
  | succ k ih =>
    have hk' : k < ny := by omega
    obtain ⟨ihv, ihw⟩ := ih hk'
    have hgs := simSteps_goodShape ii rm 0 ns wv im 0 zR zI ny k hk'
    constructor
    · intro t ht p hp
      rcases Nat.lt_or_ge t (k + 1) with h | h
      · rw [simSteps_succ,
          simYearStep_pv rm 0 im 0 ns zR zI _ (k + 1) (by rw [hgs.1]; omega),
          set_getD_ne _ _ _ _ _ (by omega)]
        exact ihv t (by omega) p hp
      · have ht' : t = k + 1 := by omega
        subst ht'
        rw [simSteps_succ,
          simYearStep_pv_getD_self rm 0 im 0 ns zR zI hgs (by omega) p hp]
        simp only [Nat.add_sub_cancel]
        rw [ihv k (Nat.le_refl k) p hp, ihw p hp]
        simp [normalDraw, specDetValue]
    · intro p hp
      rw [simSteps_succ,
        simYearStep_withdrawals_getD rm 0 im 0 ns zR zI _ (k + 1) hgs.2.2.1 p hp,
        ihw p hp]
      simp only [normalDraw, mul_zero, add_zero, specWithdrawal]
      ring

/-- For a positive horizon and nonnegative path count the function returns
normally: the matrix and the cumulative factors after `num_years - 1` loop
iterations. -/
theorem monte_carlo_simulation_ok (ii rm rs : ℚ) (ny ns : ℤ)
    (wv im ifs : ℚ) (zR zI : ℕ → ℕ → ℚ) (hny : 1 ≤ ny) (hns : 0 ≤ ns) :
    monte_carlo_simulation ii rm rs ny ns wv im ifs zR zI
      = .ok { portfolio_values :=
                (simSteps ii rm rs ns.toNat wv im ifs zR zI ny.toNat
                  (ny.toNat - 1)).portfolio_values
              cumulative_inflation_factors :=
                (simSteps ii rm rs ns.toNat wv im ifs zR zI ny.toNat
                  (ny.toNat - 1)).cumulative_inflation_factors } := by
  unfold monte_carlo_simulation
  rw [if_neg (by omega), if_neg (by omega)]

/-! ### Percentile interpolation and success-rate counting -/

/-- Unfolding of `percInterp`. -/
theorem percInterp_def (s : List ℚ) (pos : ℚ) :
    percInterp s pos
      = s.getD (Int.floor pos).toNat 0
        + (pos - ((Int.floor pos).toNat : ℚ))
          * (s.getD ((Int.floor pos).toNat + 1) (s.getD (Int.floor pos).toNat 0)
            - s.getD (Int.floor pos).toNat 0) := rfl

/-- On a sorted list, linear interpolation at a later in-range fractional
position is at least the interpolation at an earlier one. -/
theorem percInterp_mono (s : List ℚ) (hs : List.Sorted (· ≤ ·) s)
    (pos1 pos2 : ℚ) (h0 : 0 ≤ pos1) (h12 : pos1 ≤ pos2)
    (htop : pos2 ≤ (s.length : ℚ) - 1) :
    percInterp s pos1 ≤ percInterp s pos2 := by
  have hn : 1 ≤ s.length := by
    by_contra h
    have : s.length = 0 := by omega
    rw [this] at htop
    norm_num at htop
    linarith
  have hf1 : (0 : ℤ) ≤ Int.floor pos1 := Int.floor_nonneg.mpr h0
  have hf2 : (0 : ℤ) ≤ Int.floor pos2 := le_trans hf1 (Int.floor_mono h12)
  have hc1 : (((Int.floor pos1).toNat : ℚ)) ≤ pos1 := by
    have := Int.floor_le pos1
    rw [show (((Int.floor pos1).toNat : ℚ)) = ((((Int.floor pos1).toNat : ℤ)) : ℚ) by
      push_cast; ring, Int.toNat_of_nonneg hf1]
    exact this
  have hc2 : (((Int.floor pos2).toNat : ℚ)) ≤ pos2 := by
    have := Int.floor_le pos2
    rw [show (((Int.floor pos2).toNat : ℚ)) = ((((Int.floor pos2).toNat : ℤ)) : ℚ) by
      push_cast; ring, Int.toNat_of_nonneg hf2]
    exact this
  have hlt1 : pos1 < (((Int.floor pos1).toNat : ℚ)) + 1 := by
    have := Int.lt_floor_add_one pos1
    rw [show (((Int.floor pos1).toNat : ℚ)) = ((((Int.floor pos1).toNat : ℤ)) : ℚ) by
      push_cast; ring, Int.toNat_of_nonneg hf1]
    exact this
  have hi12 : (Int.floor pos1).toNat ≤ (Int.floor pos2).toNat :=
    Int.toNat_le_toNat (Int.floor_mono h12)
  have hi2top : (Int.floor pos2).toNat ≤ s.length - 1 := by
    have hfl : Int.floor pos2 ≤ (s.length : ℤ) - 1 := by
      have h1 : Int.floor pos2 ≤ Int.floor ((s.length : ℚ) - 1) := Int.floor_mono htop
      have h2 : Int.floor ((s.length : ℚ) - 1) = (s.length : ℤ) - 1 := by
        rw [show ((s.length : ℚ) - 1) = (((s.length : ℤ) - 1 : ℤ) : ℚ) by push_cast; ring,
          Int.floor_intCast]
      omega
    omega
  have hi2lt : (Int.floor pos2).toNat < s.length := by omega
  set i1 := (Int.floor pos1).toNat with hdef1
  set i2 := (Int.floor pos2).toNat with hdef2
  have hAB1 : s.getD i1 0 ≤ s.getD (i1 + 1) (s.getD i1 0) := by
    by_cases h : i1 + 1 < s.length
    · exact sorted_getD_le s hs i1 (i1 + 1) 0 (s.getD i1 0) (Nat.le_succ i1) h
    · rw [List.getD_eq_default _ _ (Nat.le_of_not_lt h)]
  have hAB2 : s.getD i2 0 ≤ s.getD (i2 + 1) (s.getD i2 0) := by
    by_cases h : i2 + 1 < s.length
    · exact sorted_getD_le s hs i2 (i2 + 1) 0 (s.getD i2 0) (Nat.le_succ i2) h
    · rw [List.getD_eq_default _ _ (Nat.le_of_not_lt h)]
  rw [percInterp_def, percInterp_def, ← hdef1, ← hdef2]
  rcases eq_or_lt_of_le hi12 with heq | hlt
  · rw [← heq]
    have hfr : pos1 - (i1 : ℚ) ≤ pos2 - (i1 : ℚ) := by linarith
    have hmul := mul_le_mul_of_nonneg_right hfr (sub_nonneg.mpr hAB1)
    linarith
  · have hv1 : s.getD i1 0 + (pos1 - (i1 : ℚ))
        * (s.getD (i1 + 1) (s.getD i1 0) - s.getD i1 0)
        ≤ s.getD (i1 + 1) (s.getD i1 0) := by
      have hfr1 : pos1 - (i1 : ℚ) ≤ 1 := by linarith
      have := mul_le_mul_of_nonneg_right hfr1 (sub_nonneg.mpr hAB1)
      linarith
    have hmid : s.getD (i1 + 1) (s.getD i1 0) ≤ s.getD i2 0 :=
      sorted_getD_le s hs (i1 + 1) i2 (s.getD i1 0) 0 hlt hi2lt
    have hv2 : s.getD i2 0 ≤ s.getD i2 0 + (pos2 - (i2 : ℚ))
        * (s.getD (i2 + 1) (s.getD i2 0) - s.getD i2 0) := by
      have := mul_nonneg (by linarith : (0 : ℚ) ≤ pos2 - (i2 : ℚ))
        (sub_nonneg.mpr hAB2)
      linarith
    linarith

/-- Monotonicity of `np.percentile` in the rank, for ranks in `[0, 100]`. -/
theorem np_percentile_mono (xs : List ℚ) (hxs : xs ≠ []) (q1 q2 : ℚ)
    (h0 : 0 ≤ q1) (h12 : q1 ≤ q2) (h100 : q2 ≤ 100) :
    np_percentile xs q1 ≤ np_percentile xs q2 := by
  have hs : List.Sorted (· ≤ ·) (xs.insertionSort (· ≤ ·)) :=
    List.sorted_insertionSort _ xs
  have hn : 1 ≤ (xs.insertionSort (· ≤ ·)).length := by
    rw [(List.perm_insertionSort (· ≤ ·) xs).length_eq]
    exact List.length_pos.mpr hxs
  have hlen1 : (0 : ℚ) ≤ ((xs.insertionSort (· ≤ ·)).length : ℚ) - 1 := by
    have : (1 : ℚ) ≤ ((xs.insertionSort (· ≤ ·)).length : ℚ) := by
      exact_mod_cast hn
    linarith
  show percInterp (xs.insertionSort (· ≤ ·))
      (q1 / 100 * (((xs.insertionSort (· ≤ ·)).length : ℚ) - 1))
    ≤ percInterp (xs.insertionSort (· ≤ ·))
      (q2 / 100 * (((xs.insertionSort (· ≤ ·)).length : ℚ) - 1))
  refine percInterp_mono _ hs _ _ ?_ ?_ ?_
  · exact mul_nonneg (by linarith) hlen1
  · exact mul_le_mul_of_nonneg_right (by linarith) hlen1
  · calc q2 / 100 * (((xs.insertionSort (· ≤ ·)).length : ℚ) - 1)
        ≤ 1 * (((xs.insertionSort (· ≤ ·)).length : ℚ) - 1) :=
          mul_le_mul_of_nonneg_right (by linarith) hlen1
      _ = ((xs.insertionSort (· ≤ ·)).length : ℚ) - 1 := one_mul _

/-- Counting strictly positive entries of a list is counting the indices whose
entry is strictly positive. -/
theorem countP_pos_eq_card_filter (l : List ℚ) :
    (l.countP fun v => decide (0 < v))
      = ((Finset.range l.length).filter fun p => 0 < l.getD p 0).card := by
  induction l using List.reverseRecOn with
  | nil => simp
  | append_singleton l a ih =>
    have hgetn : (l ++ [a]).getD l.length 0 = a := by
      rw [List.getD_eq_getElem _ _ (by simp),
        List.getElem_append_right (le_refl l.length)]
      simp
    have hgetlt : ∀ p ∈ Finset.range l.length,
        ((0 : ℚ) < (l ++ [a]).getD p 0) ↔ (0 < l.getD p 0) := by
      intro p hp
      have hp' := Finset.mem_range.mp hp
      rw [List.getD_eq_getElem _ _ (by simp; omega),
        List.getD_eq_getElem _ _ hp', List.getElem_append_left hp']
    rw [List.countP_append, List.length_append]
    simp only [List.length_cons, List.length_nil]
    rw [Finset.range_succ, Finset.filter_insert, Finset.filter_congr hgetlt, hgetn]
    by_cases ha : (0 : ℚ) < a
    · rw [if_pos ha, Finset.card_insert_of_not_mem (by simp), ih]
      simp [List.countP_cons, ha]
    · rw [if_neg ha, ih]
      simp [List.countP_cons, ha]

/-! ### Claims -/

/-- C1 (counterexample): the original claim says a non-positive path count or
a negative initial investment makes `monte_carlo_simulation` raise a
configuration error; at `num_simulations = 0` (with `num_years = 3`) and at
`initial_investment = -5` (with 3 years, 2 paths) the function instead
returns normally. -/
theorem C1_counterexample :
    (monte_carlo_simulation 100000 (6/100) (1/100) 3 0 2700 (3/100) (3/100)
        (fun _ _ => 0) (fun _ _ => 0)).isOk = true ∧
    (monte_carlo_simulation (-5) (6/100) (1/100) 3 2 2700 (3/100) (3/100)
        (fun _ _ => 0) (fun _ _ => 0)).isOk = true := by
  decide

/-- C1 (amended): `monte_carlo_simulation` performs no configuration
validation.  With `num_years ≥ 1` and `num_simulations ≥ 0` (and volatilities
in the modelled nonnegative range) it returns normally — including for a zero
path count and a negative initial investment.  The only failures are numpy's:
`ValueError` from `np.zeros` for a negative dimension, and `IndexError` from
the row-0 assignment when `num_years = 0`; no configuration error exists. -/
theorem C1_no_config_validation (ii rm rs : ℚ) (ny ns : ℤ) (wv im ifs : ℚ)
    (zR zI : ℕ → ℕ → ℚ) :
    (1 ≤ ny → 0 ≤ ns → 0 ≤ rs → 0 ≤ ifs →
      ∃ r, monte_carlo_simulation ii rm rs ny ns wv im ifs zR zI = .ok r) ∧
    (ny < 0 ∨ ns < 0 →
      monte_carlo_simulation ii rm rs ny ns wv im ifs zR zI
        = .error .valueError) ∧
    (ny = 0 → 0 ≤ ns →
      monte_carlo_simulation ii rm rs ny ns wv im ifs zR zI
        = .error .indexError) := by
  refine ⟨fun hny hns _ _ =>
    ⟨_, monte_carlo_simulation_ok ii rm rs ny ns wv im ifs zR zI hny hns⟩, ?_, ?_⟩
  · intro h
    unfold monte_carlo_simulation
    rw [if_pos h]
  · intro h hns
    unfold monte_carlo_simulation
    rw [if_neg (by omega), if_pos h]

/-- C1 witness: the no-error branch of the amended claim at a concrete
configuration with a negative initial investment. -/
theorem C1_no_config_validation_witness :
    ∃ r, monte_carlo_simulation (-5) (6/100) (1/100) 3 2 2700 (3/100) (3/100)
        (fun _ _ => 0) (fun _ _ => 0) = .ok r :=
  (C1_no_config_validation (-5) (6/100) (1/100) 3 2 2700 (3/100) (3/100)
      (fun _ _ => 0) (fun _ _ => 0)).1 (by decide) (by decide) (by norm_num)
    (by norm_num)

/-- C2: for a valid configuration (`num_years ≥ 1`, `num_simulations ≥ 1`)
the returned matrix has exactly `num_years` rows, every row has
`num_simulations` entries, and every entry of row 0 equals the initial
investment. -/
theorem C2_matrix_shape_and_row0 (ii rm rs : ℚ) (ny ns : ℤ)
    (wv im ifs : ℚ) (zR zI : ℕ → ℕ → ℚ) (hny : 1 ≤ ny) (hns : 1 ≤ ns) :
    ∃ r, monte_carlo_simulation ii rm rs ny ns wv im ifs zR zI = .ok r ∧
      r.portfolio_values.length = ny.toNat ∧
      (∀ row ∈ r.portfolio_values, row.length = ns.toNat) ∧
      ∀ x ∈ r.portfolio_values.getD 0 [], x = ii := by
  have hk : ny.toNat - 1 < ny.toNat := by omega
  have hgs := simSteps_goodShape ii rm rs ns.toNat wv im ifs zR zI ny.toNat
    (ny.toNat - 1) hk
  refine ⟨_, monte_carlo_simulation_ok ii rm rs ny ns wv im ifs zR zI hny
    (by omega), hgs.1, hgs.2.1, ?_⟩
  intro x hx
  rw [simSteps_row0 ii rm rs ns.toNat wv im ifs zR zI ny.toNat (ny.toNat - 1)
    (by omega) hk] at hx
  exact List.eq_of_mem_replicate hx

/-- C2 witness: the shape claim at 3 years, 2 paths. -/
theorem C2_matrix_shape_and_row0_witness :
    ∃ r, monte_carlo_simulation 100000 (6/100) (1/100) 3 2 2700 (3/100) (3/100)
        (fun _ _ => 0) (fun _ _ => 0) = .ok r ∧
      r.portfolio_values.length = (3 : ℤ).toNat ∧
      (∀ row ∈ r.portfolio_values, row.length = (2 : ℤ).toNat) ∧
      ∀ x ∈ r.portfolio_values.getD 0 [], x = 100000 :=
  C2_matrix_shape_and_row0 100000 (6/100) (1/100) 3 2 2700 (3/100) (3/100)
    (fun _ _ => 0) (fun _ _ => 0) (by decide) (by decide)

/-- C3: with a nonnegative initial investment, every entry of the returned
matrix is nonnegative for every sequence of draws — written rows are clamped
by `max(·, 0)`, so a path that reaches zero never goes negative later. -/
theorem C3_no_negative_entries (ii rm rs : ℚ) (ny ns : ℤ) (wv im ifs : ℚ)
    (zR zI : ℕ → ℕ → ℚ) (hii : 0 ≤ ii) (hny : 1 ≤ ny) (hns : 1 ≤ ns) :
    ∃ r, monte_carlo_simulation ii rm rs ny ns wv im ifs zR zI = .ok r ∧
      ∀ row ∈ r.portfolio_values, ∀ x ∈ row, 0 ≤ x := by
  have hk : ny.toNat - 1 < ny.toNat := by omega
  exact ⟨_, monte_carlo_simulation_ok ii rm rs ny ns wv im ifs zR zI hny
    (by omega),
    simSteps_nonneg ii rm rs ns.toNat wv im ifs zR zI ny.toNat (ny.toNat - 1)
      hii hk⟩

/-- C3 witness: nonnegativity at a concrete lossy configuration. -/
theorem C3_no_negative_entries_witness :
    ∃ r, monte_carlo_simulation 1000 0 1 4 1 800 0 0
        (fun _ _ => -2) (fun _ _ => 0) = .ok r ∧
      ∀ row ∈ r.portfolio_values, ∀ x ∈ row, 0 ≤ x :=
  C3_no_negative_entries 1000 0 1 4 1 800 0 0 (fun _ _ => -2) (fun _ _ => 0)
    (by norm_num) (by decide) (by decide)

/-- C4: one growth-rate draw per year and path multiplies both the withdrawal
entry and the cumulative-inflation entry, so the returned cumulative factor of
path `p` is exactly the product of the `(1 + growth)` factors of years
`1..num_years-1`, and the final internal withdrawal is the initial withdrawal
times that same product. -/
theorem C4_shared_draw_cumulative_product (ii rm rs : ℚ) (ny ns : ℤ)
    (wv im ifs : ℚ) (zR zI : ℕ → ℕ → ℚ) (hny : 1 ≤ ny) (p : ℕ)
    (hp : (p : ℤ) < ns) :
    ∃ r, monte_carlo_simulation ii rm rs ny ns wv im ifs zR zI = .ok r ∧
      r.cumulative_inflation_factors.getD p 0
        = (∏ t ∈ Finset.Ico 1 ny.toNat, (1 + normalDraw im ifs (zI t p))) ∧
      (simSteps ii rm rs ns.toNat wv im ifs zR zI ny.toNat
          (ny.toNat - 1)).withdrawals.getD p 0
        = wv * r.cumulative_inflation_factors.getD p 0 := by
  have hp0 : (0 : ℤ) ≤ (p : ℤ) := Int.natCast_nonneg p
  have hk : ny.toNat - 1 < ny.toNat := by omega
  obtain ⟨hc, hw⟩ := simSteps_cumInfl_withdrawals ii rm rs ns.toNat wv im ifs
    zR zI ny.toNat (ny.toNat - 1) hk p (by omega)
  rw [show ny.toNat - 1 + 1 = ny.toNat by omega] at hc hw
  exact ⟨_, monte_carlo_simulation_ok ii rm rs ny ns wv im ifs zR zI hny
    (by omega), hc, by rw [hc]; exact hw⟩

/-- C4 witness: the product identity at 3 years, 1 path. -/
theorem C4_shared_draw_cumulative_product_witness :
    ∃ r, monte_carlo_simulation 100000 (6/100) (1/100) 3 1 2700 (3/100) (3/100)
        (fun _ _ => 0) (fun _ _ => 0) = .ok r ∧
      r.cumulative_inflation_factors.getD 0 0
        = (∏ t ∈ Finset.Ico 1 (3 : ℤ).toNat,
            (1 + normalDraw (3/100) (3/100) ((fun _ _ => (0:ℚ)) t 0))) ∧
      (simSteps 100000 (6/100) (1/100) (1 : ℤ).toNat 2700 (3/100) (3/100)
          (fun _ _ => 0) (fun _ _ => 0) (3 : ℤ).toNat ((3 : ℤ).toNat - 1)).withdrawals.getD 0 0
        = 2700 * r.cumulative_inflation_factors.getD 0 0 :=
  C4_shared_draw_cumulative_product 100000 (6/100) (1/100) 3 1 2700 (3/100)
    (3/100) (fun _ _ => 0) (fun _ _ => 0) (by decide) 0 (by decide)

/-- C5: with both volatilities zero every path follows the deterministic
recurrence `v[t] = max(v[t-1]*(1+returns_mean) - withdrawal[t-1], 0)` with the
withdrawal compounding by `(1+inflation_mean)` only after being used, and the
cumulative inflation factor is `(1+inflation_mean)^(num_years-1)`; the two
concrete spec scenarios are checked in the witness. -/
theorem C5_zero_volatility_recurrence (ii rm : ℚ) (ny ns : ℤ) (wv im : ℚ)
    (zR zI : ℕ → ℕ → ℚ) (hny : 1 ≤ ny) (hns : 0 ≤ ns) :
    ∃ r, monte_carlo_simulation ii rm 0 ny ns wv im 0 zR zI = .ok r ∧
      (∀ t : ℕ, (t : ℤ) < ny → ∀ p : ℕ, (p : ℤ) < ns →
        (r.portfolio_values.getD t []).getD p 0 = specDetValue ii rm wv im t) ∧
      (∀ p : ℕ, (p : ℤ) < ns →
        r.cumulative_inflation_factors.getD p 0
          = (1 + im) ^ (ny.toNat - 1)) := by
  have hny' : 1 ≤ ny.toNat := by omega
  have hk : ny.toNat - 1 < ny.toNat := by omega
  obtain ⟨hv, _⟩ := simSteps_zero_vol ii rm ns.toNat wv im zR zI ny.toNat
    (ny.toNat - 1) hny' hk
  refine ⟨_, monte_carlo_simulation_ok ii rm 0 ny ns wv im 0 zR zI hny hns,
    ?_, ?_⟩
  · intro t ht p hp
    exact hv t (by omega) p (by omega)
  · intro p hp
    obtain ⟨hc, _⟩ := simSteps_cumInfl_withdrawals ii rm 0 ns.toNat wv im 0
      zR zI ny.toNat (ny.toNat - 1) hk p (by omega)
    have hcongr : (∏ t ∈ Finset.Ico 1 (ny.toNat - 1 + 1),
        (1 + normalDraw im 0 (zI t p))) = (1 + im) ^ (ny.toNat - 1) := by
      rw [Finset.prod_congr rfl fun t _ =>
        show (1 + normalDraw im 0 (zI t p)) = 1 + im by simp [normalDraw]]
      rw [Finset.prod_const, Nat.card_Ico]
      simp
    show (simSteps ii rm 0 ns.toNat wv im 0 zR zI ny.toNat
      (ny.toNat - 1)).cumulative_inflation_factors.getD p 0 = _
    rw [hc, hcongr]

/-- C5 witness: the two spec scenarios — no inflation gives values
`[100000, 90000, 80000]` and factor `1`; 10% inflation gives withdrawals
`[10000, 11000]`, values `[100000, 90000, 79000]` and factor `121/100`. -/
theorem C5_zero_volatility_recurrence_witness :
    (∃ r, monte_carlo_simulation 100000 0 0 3 1 10000 0 0
        (fun _ _ => 0) (fun _ _ => 0) = .ok r ∧
      (∀ t : ℕ, (t : ℤ) < 3 → ∀ p : ℕ, (p : ℤ) < 1 →
        (r.portfolio_values.getD t []).getD p 0 = specDetValue 100000 0 10000 0 t) ∧
      (∀ p : ℕ, (p : ℤ) < 1 →
        r.cumulative_inflation_factors.getD p 0 = (1 + 0) ^ ((3 : ℤ).toNat - 1))) ∧
    (∃ r, monte_carlo_simulation 100000 0 0 3 1 10000 (1/10) 0
        (fun _ _ => 0) (fun _ _ => 0) = .ok r ∧
      (∀ t : ℕ, (t : ℤ) < 3 → ∀ p : ℕ, (p : ℤ) < 1 →
        (r.portfolio_values.getD t []).getD p 0
          = specDetValue 100000 0 10000 (1/10) t) ∧
      (∀ p : ℕ, (p : ℤ) < 1 →
        r.cumulative_inflation_factors.getD p 0
          = (1 + 1/10) ^ ((3 : ℤ).toNat - 1))) ∧
    specDetValue 100000 0 10000 0 0 = 100000 ∧
    specDetValue 100000 0 10000 0 1 = 90000 ∧
    specDetValue 100000 0 10000 0 2 = 80000 ∧
    specDetValue 100000 0 10000 (1/10) 1 = 90000 ∧
    specDetValue 100000 0 10000 (1/10) 2 = 79000 ∧
    specWithdrawal 10000 (1/10) 0 = 10000 ∧
    specWithdrawal 10000 (1/10) 1 = 11000 ∧
    ((1 : ℚ) + 0) ^ ((3 : ℤ).toNat - 1) = 1 ∧
    ((1 : ℚ) + 1/10) ^ ((3 : ℤ).toNat - 1) = 121/100 :=
  ⟨C5_zero_volatility_recurrence 100000 0 3 1 10000 0
      (fun _ _ => 0) (fun _ _ => 0) (by decide) (by decide),
   C5_zero_volatility_recurrence 100000 0 3 1 10000 (1/10)
      (fun _ _ => 0) (fun _ _ => 0) (by decide) (by decide),
   by norm_num [specDetValue],
   by norm_num [specDetValue, specWithdrawal],
   by norm_num [specDetValue, specWithdrawal],
   by norm_num [specDetValue, specWithdrawal],
   by norm_num [specDetValue, specWithdrawal],
   by norm_num [specWithdrawal],
   by norm_num [specWithdrawal],
   by norm_num,
   by rw [show (3 : ℤ).toNat - 1 = 2 from rfl]; norm_num⟩

/-- C6: the real terminal value of each path is its nominal terminal value
divided by that same path's cumulative inflation factor — a pure elementwise
division, not deflation by a shared scalar. -/
theorem C6_elementwise_deflation (r : MCResult) (p : ℕ)
    (h1 : p < (final_portfolio_values r).length)
    (h2 : p < r.cumulative_inflation_factors.length) :
    (final_portfolio_values_real r).getD p 0
      = (final_portfolio_values r).getD p 0
        / r.cumulative_inflation_factors.getD p 0 := by
  unfold final_portfolio_values_real
  rw [zipWith_getD _ _ _ p h1 h2 0 0 0]

/-- C6 witness: two paths deflated by different factors (2 and 4). -/
theorem C6_elementwise_deflation_witness :
    (final_portfolio_values_real ⟨[[100, 200]], [2, 4]⟩).getD 1 0
      = (final_portfolio_values ⟨[[100, 200]], [2, 4]⟩).getD 1 0
        / (MCResult.mk [[100, 200]] [2, 4]).cumulative_inflation_factors.getD 1 0 ∧
    (final_portfolio_values_real ⟨[[100, 200]], [2, 4]⟩).getD 1 0 = 50 :=
  ⟨C6_elementwise_deflation ⟨[[100, 200]], [2, 4]⟩ 1 (by decide) (by decide),
   by norm_num [final_portfolio_values_real, final_portfolio_values]⟩

/-- C7: if every growth rate drawn for path `p` over years `1..num_years-1`
exceeds −1, the returned cumulative inflation factor of that path is strictly
positive. -/
theorem C7_positive_inflation_factor (ii rm rs : ℚ) (ny ns : ℤ)
    (wv im ifs : ℚ) (zR zI : ℕ → ℕ → ℚ) (hny : 1 ≤ ny) (p : ℕ)
    (hp : (p : ℤ) < ns)
    (hg : ∀ t : ℕ, 1 ≤ t → (t : ℤ) < ny → -1 < normalDraw im ifs (zI t p)) :
    ∃ r, monte_carlo_simulation ii rm rs ny ns wv im ifs zR zI = .ok r ∧
      0 < r.cumulative_inflation_factors.getD p 0 := by
  have hp0 : (0 : ℤ) ≤ (p : ℤ) := Int.natCast_nonneg p
  have hk : ny.toNat - 1 < ny.toNat := by omega
  obtain ⟨hc, _⟩ := simSteps_cumInfl_withdrawals ii rm rs ns.toNat wv im ifs
    zR zI ny.toNat (ny.toNat - 1) hk p (by omega)
  refine ⟨_, monte_carlo_simulation_ok ii rm rs ny ns wv im ifs zR zI hny
    (by omega), ?_⟩
  show 0 < (simSteps ii rm rs ns.toNat wv im ifs zR zI ny.toNat
    (ny.toNat - 1)).cumulative_inflation_factors.getD p 0
  rw [hc]
  refine Finset.prod_pos ?_
  intro t ht
  obtain ⟨ht1, ht2⟩ := Finset.mem_Ico.mp ht
  have := hg t ht1 (by omega)
  linarith

/-- C7 witness: positivity at a concrete configuration with constant zero
standard draws (growth rate `3/100 > -1` each year). -/
theorem C7_positive_inflation_factor_witness :
    ∃ r, monte_carlo_simulation 100000 (6/100) (1/100) 3 1 2700 (3/100) (3/100)
        (fun _ _ => 0) (fun _ _ => 0) = .ok r ∧
      0 < r.cumulative_inflation_factors.getD 0 0 :=
  C7_positive_inflation_factor 100000 (6/100) (1/100) 3 1 2700 (3/100) (3/100)
    (fun _ _ => 0) (fun _ _ => 0) (by decide) 0 (by decide)
    (fun t _ _ => by norm_num [normalDraw])

/-- C8: the success rate is the number of paths whose terminal nominal value
is strictly positive, over the number of paths, times 100; a terminal value
of exactly zero is not counted. -/
theorem C8_success_rate_strict_fraction (r : MCResult)
    (h : 0 < (final_portfolio_values r).length) :
    success_rate r
      = (((Finset.range (final_portfolio_values r).length).filter
            fun p => 0 < (final_portfolio_values r).getD p 0).card : ℚ)
          / ((final_portfolio_values r).length : ℚ) * 100 ∧
    ∀ p : ℕ, (final_portfolio_values r).getD p 0 = 0 →
      p ∉ (Finset.range (final_portfolio_values r).length).filter
        fun p => 0 < (final_portfolio_values r).getD p 0 := by
  constructor
  · unfold success_rate
    rw [countP_pos_eq_card_filter]
  · intro p hp hmem
    have := (Finset.mem_filter.mp hmem).2
    rw [hp] at this
    exact lt_irrefl 0 this

/-- C8 witness: terminal values `[0, 5, 3]` give success rate `200/3` — the
zero path counts as a failure. -/
theorem C8_success_rate_strict_fraction_witness :
    (success_rate ⟨[[0, 5, 3]], [1, 1, 1]⟩
      = (((Finset.range (final_portfolio_values ⟨[[0, 5, 3]], [1, 1, 1]⟩).length).filter
            fun p => 0 < (final_portfolio_values ⟨[[0, 5, 3]], [1, 1, 1]⟩).getD p 0).card : ℚ)
          / ((final_portfolio_values ⟨[[0, 5, 3]], [1, 1, 1]⟩).length : ℚ) * 100 ∧
      ∀ p : ℕ, (final_portfolio_values ⟨[[0, 5, 3]], [1, 1, 1]⟩).getD p 0 = 0 →
        p ∉ (Finset.range (final_portfolio_values ⟨[[0, 5, 3]], [1, 1, 1]⟩).length).filter
          fun p => 0 < (final_portfolio_values ⟨[[0, 5, 3]], [1, 1, 1]⟩).getD p 0) ∧
    success_rate ⟨[[0, 5, 3]], [1, 1, 1]⟩ = 200/3 :=
  ⟨C8_success_rate_strict_fraction ⟨[[0, 5, 3]], [1, 1, 1]⟩ (by decide),
   by norm_num [success_rate, final_portfolio_values]⟩

/-- C9: for a non-empty value list and two of the table's ranks
`5, 10, ..., 95` with `p1 < p2`, the linear-interpolation percentile at `p1`
is at most the one at `p2`. -/
theorem C9_percentile_rank_monotone (xs : List ℚ) (hxs : xs ≠ []) (p1 p2 : ℕ)
    (h1 : p1 ∈ percentile_ranks) (h2 : p2 ∈ percentile_ranks) (h12 : p1 < p2) :
    np_percentile xs (p1 : ℚ) ≤ np_percentile xs (p2 : ℚ) := by
  have hb : ∀ x ∈ percentile_ranks, 5 ≤ x ∧ x ≤ 95 := by decide
  obtain ⟨hb1, _⟩ := hb p1 h1
  obtain ⟨_, hb2⟩ := hb p2 h2
  refine np_percentile_mono xs hxs _ _ (Nat.cast_nonneg p1) ?_ ?_
  · exact_mod_cast le_of_lt h12
  · have hc : (p2 : ℚ) ≤ 95 := by exact_mod_cast hb2
    linarith

/-- C9 witness: ranks 5 and 95 on the values `[3, 1, 2]` give `11/10 ≤ 29/10`. -/
theorem C9_percentile_rank_monotone_witness :
    np_percentile [3, 1, 2] ((5 : ℕ) : ℚ) ≤ np_percentile [3, 1, 2] ((95 : ℕ) : ℚ) ∧
    np_percentile [3, 1, 2] ((5 : ℕ) : ℚ) = 11/10 ∧
    np_percentile [3, 1, 2] ((95 : ℕ) : ℚ) = 29/10 :=
  ⟨C9_percentile_rank_monotone [3, 1, 2] (by decide) 5 95 (by decide)
      (by decide) (by decide),
   by norm_num [np_percentile, percInterp, List.insertionSort, List.orderedInsert],
   by norm_num [np_percentile, percInterp, List.insertionSort, List.orderedInsert]⟩

/-- C10: the `monte_carlo_simulation` pasted into `main.py` and the original
in `monte-carlo-simulation.py` agree on every configuration and every
sequence of draws. -/
theorem C10_mainpy_copy_extensionally_equal (ii rm rs : ℚ) (ny ns : ℤ)
    (wv im ifs : ℚ) (zR zI : ℕ → ℕ → ℚ) :
    monte_carlo_simulation ii rm rs ny ns wv im ifs zR zI
      = MainPy.monte_carlo_simulation ii rm rs ny ns wv im ifs zR zI := rfl
